import Mathlib

/-
Verification of the SMC program-synthesis search core
(SMC.py, programGraph.py).

Shallow embedding conventions:
 * DSL objects (nodes) are opaque values with structural equality; modelled as ℕ.
 * Python floats are modelled as exact numbers: cached encodings and distances
   as ℚ, the log/exp weighting pipeline in ℝ (the idealized arithmetic the
   spec's exactness statements refer to).
 * `ProgramGraph` defines neither `__eq__` nor `__hash__` in the source, so
   CPython's default identity-based equality and hashing govern every dict
   keyed by graphs.  A runtime graph value is therefore modelled as a
   `GraphRef`: an allocation identity (`pid`, standing for `id(obj)`) paired
   with the structural node set.  Fresh allocations take fresh pids from a
   monotone counter threaded through the round.
 * Stochastic / neural collaborators (`objectEncoder`, `model.distance`,
   `repeatedlySample`, `np.random.multinomial`) are oracle parameters.
   `repeatedlySample` is indexed by round number and by the particle's
   position in the population list (fresh randomness per call);
   `np.random.multinomial` by round number.
-/

namespace ProgramSearch

/-- Embeds `ProgramGraph.__init__` (programGraph.py lines 15-18): the structural
content of a graph, an immutable `frozenset` of nodes. -/
structure ProgramGraph where
  nodes : Finset ℕ
deriving DecidableEq

/-- Embeds `ProgramGraph.extend` (programGraph.py lines 53-54):
`ProgramGraph(self.nodes | {newNode})`. -/
def ProgramGraph.extend (g : ProgramGraph) (newNode : ℕ) : ProgramGraph :=
  ⟨g.nodes ∪ {newNode}⟩

/-- Embeds `ProgramGraph.objects` (programGraph.py lines 56-57). -/
def ProgramGraph.objects (g : ProgramGraph) : Finset ℕ := g.nodes

/-- Embeds `ProgramGraph.__len__` (programGraph.py line 31). -/
def ProgramGraph.len (g : ProgramGraph) : ℕ := g.nodes.card

/-- A Python runtime reference to a `ProgramGraph` object: allocation identity
(`id(obj)`) plus structural value.  Needed because the source class defines no
`__eq__`/`__hash__`, so dict keying is by identity. -/
structure GraphRef where
  pid : ℕ
  val : ProgramGraph
deriving DecidableEq

/-- Python `==` on two `ProgramGraph` objects: the source defines no `__eq__`,
so CPython's default `object.__eq__` (identity comparison) applies. -/
def GraphRef.pyEq (a b : GraphRef) : Bool := a.pid == b.pid

/-- Python `hash` of a `ProgramGraph` object: the source defines no `__hash__`,
so CPython's default identity-derived hash applies. -/
def GraphRef.pyHash (a : GraphRef) : ℕ := a.pid

/-- Embeds the `Particle` class of `SMC.infer` (SMC.py lines 38-42). -/
structure Particle where
  graph : GraphRef
  frequency : ℤ
  distance : ℚ
deriving DecidableEq

/-- Embeds `scopeEncoding` (SMC.py lines 22-27): for a non-empty graph, the
stacked memoized object encodings of the graph's objects (frozenset iteration
order modelled canonically by sorting; `objectEncoding`'s cached value always
equals `enc o`, see the memoization theorems); for the empty graph, the
`torch.zeros((1, W))` placeholder, one row of the object encoder's output
width. -/
def scopeEncoding (enc : ℕ → List ℚ) (W : ℕ) (g : ProgramGraph) : List (List ℚ) :=
  if 0 < g.len then (g.nodes.sort (· ≤ ·)).map enc else [List.replicate W 0]

/-- Embeds the local `distance` function of `SMC.infer` (SMC.py lines 29-36):
its memoized value is `model.distance(scopeEncoding(g), specEncoding)`, a pure
function of the graph (the `_distance` cache only avoids recomputation). -/
def graphDistance (enc : ℕ → List ℚ) (W : ℕ) (dist : List (List ℚ) → ℚ)
    (g : ProgramGraph) : ℚ :=
  dist (scopeEncoding enc W g)

/-- Embeds `Particle.__init__` (SMC.py lines 38-42). -/
def mkParticle (enc : ℕ → List ℚ) (W : ℕ) (dist : List (List ℚ) → ℚ)
    (g : GraphRef) (f : ℤ) : Particle :=
  ⟨g, f, graphDistance enc W dist g.val⟩

/-- Embeds the object-encoding cache lookup `o in _objectEncodings` /
`_objectEncodings[o]` (SMC.py lines 15-17); the dict is keyed by the DSL
objects' structural hash (an external contract of the object model). -/
def cacheLookup (c : List (ℕ × List ℚ)) (o : ℕ) : Option (List ℚ) :=
  match c.find? (fun e => e.1 == o) with
  | some e => some e.2
  | none => none

/-- Embeds `objectEncoding` (SMC.py lines 16-20): memoized object encoding.
The third component records whether the external `objectEncoder` collaborator
was invoked by this call (a cache miss). -/
def objectEncoding (enc : ℕ → List ℚ) (c : List (ℕ × List ℚ)) (o : ℕ) :
    List ℚ × List (ℕ × List ℚ) × Bool :=
  match cacheLookup c o with
  | some v => (v, c, false)
  | none => (enc o, (o, enc o) :: c, true)

/-- Cache well-formedness: every stored encoding is the collaborator's value. -/
def cacheWF (enc : ℕ → List ℚ) (c : List (ℕ × List ℚ)) : Prop :=
  ∀ e ∈ c, e.2 = enc e.1

/-- The sequence of objects on which a run of `objectEncoding` queries invokes
the external encoder collaborator, starting from cache `c`. -/
def invocations (enc : ℕ → List ℚ) : List (ℕ × List ℚ) → List ℕ → List ℕ
  | _, [] => []
  | c, q :: qs =>
    (if (objectEncoding enc c q).2.2 then [q] else []) ++
      invocations enc (objectEncoding enc c q).2.1 qs

/-- Embeds `sampleFrequency[newGraph] = sampleFrequency.get(newGraph, 0) + 1`
(SMC.py line 55): dict insertion keyed by Python equality on `ProgramGraph`
objects, i.e. identity (`GraphRef.pyEq`); a hit increments in place keeping
insertion order, a miss appends. -/
def tallyInsert (t : List (GraphRef × ℤ)) (k : GraphRef) : List (GraphRef × ℤ) :=
  if t.any (fun e => GraphRef.pyEq e.1 k) then
    t.map (fun e => if GraphRef.pyEq e.1 k then (e.1, e.2 + 1) else e)
  else t ++ [(k, 1)]

/-- Embeds the inner proposal loop of a round (SMC.py lines 50-55) for one
particle: a terminal (`None`) proposal reuses the particle's existing graph
reference; a concrete proposal calls `extend`, allocating a fresh object whose
identity is the current counter value.  (The eager `objectEncoding(newObject)`
call on line 52 only populates the cache; its value is `enc newObject`, see the
memoization theorems.) -/
def processProposals (g : GraphRef) (props : List (Option ℕ))
    (st : List (GraphRef × ℤ) × ℕ) : List (GraphRef × ℤ) × ℕ :=
  props.foldl (fun st p =>
    match p with
    | none => (tallyInsert st.1 g, st.2)
    | some o => (tallyInsert st.1 ⟨st.2, g.val.extend o⟩, st.2 + 1)) st

/-- Embeds the proposal/tally phase of a round (SMC.py lines 48-55): fold the
per-particle proposal loop over the population, building `sampleFrequency`.
`props i` is the list returned by `repeatedlySample` for the particle at
position `i`. -/
def proposePhase (props : ℕ → List (Option ℕ)) (pop : List Particle) (c : ℕ) :
    List (GraphRef × ℤ) × ℕ :=
  pop.enum.foldl (fun st ip => processProposals ip.2.graph (props ip.1) st) ([], c)

/-- Embeds `logWeights = [math.log(p.frequency) - p.distance for p in samples]`
(SMC.py lines 62-63). -/
noncomputable def logWeights (samples : List Particle) : List ℝ :=
  samples.map (fun p => Real.log (p.frequency : ℝ) - (p.distance : ℝ))

/-- Python `max` over a list, as used in `max(logWeights)` (SMC.py line 64);
the source only evaluates it on non-empty lists (the comprehension body is
never reached when `logWeights` is empty), so the `[]` value is immaterial. -/
def maxList : List ℝ → ℝ
  | [] => 0
  | x :: xs => xs.foldl max x

/-- Embeds the numerically-stable softmax (SMC.py lines 64-65):
`ps = [math.exp(lw - max(logWeights)) for lw in logWeights]` then
`ps = [p/sum(ps) for p in ps]`. -/
noncomputable def normalizeWeights (lws : List ℝ) : List ℝ :=
  let es := lws.map (fun lw => Real.exp (lw - maxList lws))
  es.map (fun p => p / es.sum)

/-- Embeds the resampling loop (SMC.py lines 68-72): zip the distinct samples
with the multinomial counts, keep those with positive count, overwriting each
kept particle's frequency with its count. -/
def resamplePhase (samples : List Particle) (counts : List ℤ) : List Particle :=
  ((samples.zip counts).filter (fun pc => decide (0 < pc.2))).map
    (fun pc => { pc.1 with frequency := pc.2 })

/-- Embeds one round of `SMC.infer` (SMC.py lines 47-72): propose and tally,
convert tally entries to particles (SMC.py lines 57-59), weight and normalize,
draw multinomial counts, resample.  The state is (population, allocation
counter). -/
noncomputable def step (enc : ℕ → List ℚ) (W : ℕ) (dist : List (List ℚ) → ℚ)
    (propose : ℕ → ℕ → List (Option ℕ)) (multinomial : ℕ → ℤ → List ℝ → List ℤ)
    (r : ℕ) (particles : ℤ) (st : List Particle × ℕ) : List Particle × ℕ :=
  let t := proposePhase (propose r) st.1 st.2
  let samples := t.1.map (fun e => mkParticle enc W dist e.1 e.2)
  let counts := multinomial r particles (normalizeWeights (logWeights samples))
  (resamplePhase samples counts, t.2)

/-- The empty graph `ProgramGraph([])` allocated at SMC.py line 45; it receives
allocation identity 0. -/
def emptyGraphRef : GraphRef := ⟨0, ⟨∅⟩⟩

/-- Embeds `population = [Particle(ProgramGraph([]), self.particles)]`
(SMC.py line 45); the allocation counter starts past the root's identity. -/
def initState (enc : ℕ → List ℚ) (W : ℕ) (dist : List (List ℚ) → ℚ)
    (particles : ℤ) : List Particle × ℕ :=
  ([mkParticle enc W dist emptyGraphRef particles], 1)

/-- Embeds the `SMC` controller configuration stored by `SMC.__init__`
(SMC.py lines 3-9); the model is passed separately as oracle parameters. -/
structure SMC where
  particles : ℤ
  fitnessWeight : ℚ

/-- Embeds `SMC.__init__` (SMC.py lines 4-9) including its
`assert particles > 0` precondition and the defaults `particles=0`,
`fitnessWeight=2.`: construction fails (assertion error, modelled as `none`)
unless `particles > 0`. -/
def SMC.init (particles : ℤ := 0) (fitnessWeight : ℚ := 2) : Option SMC :=
  if 0 < particles then some ⟨particles, fitnessWeight⟩ else none

/-- Embeds the round loop of `SMC.infer` (SMC.py lines 45-72): fold `step` over
rounds `0, ..., maximumLength - 1` from the initial singleton population. -/
noncomputable def SMC.inferPopulation (smc : SMC) (enc : ℕ → List ℚ) (W : ℕ)
    (dist : List (List ℚ) → ℚ) (propose : ℕ → ℕ → List (Option ℕ))
    (multinomial : ℕ → ℤ → List ℝ → List ℤ) (maximumLength : ℕ) :
    List Particle × ℕ :=
  (List.range maximumLength).foldl
    (fun st r => step enc W dist propose multinomial r smc.particles st)
    (initState enc W dist smc.particles)

/-- Embeds `SMC.infer` (SMC.py lines 11-74, default `maximumLength=8`):
returns `[p.graph for p in population]` after the final round. -/
noncomputable def SMC.infer (smc : SMC) (enc : ℕ → List ℚ) (W : ℕ)
    (dist : List (List ℚ) → ℚ) (propose : ℕ → ℕ → List (Option ℕ))
    (multinomial : ℕ → ℤ → List ℝ → List ℤ) (maximumLength : ℕ := 8) :
    List GraphRef :=
  (smc.inferPopulation enc W dist propose multinomial maximumLength).1.map
    (fun p => p.graph)

/-- A concrete trivial object encoder used to instantiate witnesses. -/
def encD : ℕ → List ℚ := fun _ => []

/-- A concrete trivial distance estimator used to instantiate witnesses. -/
def distD : List (List ℚ) → ℚ := fun _ => 0

/-- Claim C9: constructing the controller with `particles` less than or equal
to zero (including the default of 0) fails immediately at construction time,
before any search work begins; with positive `particles` construction
succeeds. -/
theorem init_requires_positive_particles :
    (∀ (p : ℤ) (fw : ℚ), (SMC.init p fw).isSome ↔ 0 < p) ∧ SMC.init 0 2 = none := by
  refine ⟨fun p fw => ?_, by simp [SMC.init]⟩
  by_cases h : 0 < p <;> simp [SMC.init, h]

theorem init_requires_positive_particles_witness :
    (SMC.init 3 2).isSome :=
  (init_requires_positive_particles.1 3 2).mpr (by decide)

/-- Claim C10: `extend` returns a graph whose object set is the receiver's
object set united with the new node; extending with a node already present
leaves the object set and the length unchanged; length grows by at most one.
(The receiver itself is unchanged: `extend` is a pure function in the source,
building `ProgramGraph(self.nodes | {newNode})` without mutation, which the
pure embedding reflects intrinsically.) -/
theorem extend_objects_spec (g : ProgramGraph) (n : ℕ) :
    (g.extend n).objects = g.objects ∪ {n}
    ∧ (n ∈ g.objects → (g.extend n).objects = g.objects ∧ (g.extend n).len = g.len)
    ∧ (g.extend n).len ≤ g.len + 1 := by
  have hobj : (g.extend n).objects = g.objects ∪ {n} := rfl
  refine ⟨hobj, fun h => ?_, ?_⟩
  · have h1 : g.objects ∪ {n} = g.objects :=
      Finset.union_eq_left.mpr (Finset.singleton_subset_iff.mpr h)
    refine ⟨hobj.trans h1, ?_⟩
    show (g.nodes ∪ {n}).card = g.nodes.card
    rw [show g.nodes ∪ {n} = g.nodes from h1]
  · show (g.nodes ∪ {n}).card ≤ g.nodes.card + 1
    simpa using Finset.card_union_le g.nodes {n}

theorem extend_objects_spec_witness :
    ((ProgramGraph.mk {1, 2}).extend 1).objects = (ProgramGraph.mk {1, 2}).objects :=
  ((extend_objects_spec ⟨{1, 2}⟩ 1).2.1 (by decide)).1

/-- Claim C7: for every graph, the scope-encoding routine returns, when the
graph is empty, a zero matrix with exactly one row of the object encoder's
output width (not an empty collection); otherwise the stacked object encodings
of the graph's objects. -/
theorem scopeEncoding_spec (enc : ℕ → List ℚ) (W : ℕ) (g : ProgramGraph) :
    (g.nodes = ∅ →
      scopeEncoding enc W g = [List.replicate W 0]
      ∧ (scopeEncoding enc W g).length = 1
      ∧ ∀ row ∈ scopeEncoding enc W g, row.length = W)
    ∧ (g.nodes ≠ ∅ → scopeEncoding enc W g = (g.nodes.sort (· ≤ ·)).map enc) := by
  constructor
  · intro h
    have hlen : ¬ 0 < g.len := by simp [ProgramGraph.len, h]
    have he : scopeEncoding enc W g = [List.replicate W 0] := by
      simp [scopeEncoding, hlen]
    exact ⟨he, by simp [he], by simp [he]⟩
  · intro h
    have hlen : 0 < g.len := by
      simpa [ProgramGraph.len, Finset.card_pos, Finset.nonempty_iff_ne_empty] using h
    simp [scopeEncoding, hlen]

theorem scopeEncoding_spec_witness :
    scopeEncoding encD 2 ⟨∅⟩ = [List.replicate 2 0]
    ∧ scopeEncoding encD 2 ⟨{3}⟩ = (({3} : Finset ℕ).sort (· ≤ ·)).map encD :=
  ⟨((scopeEncoding_spec encD 2 ⟨∅⟩).1 rfl).1,
   (scopeEncoding_spec encD 2 ⟨{3}⟩).2 (by decide)⟩

/-- Claim C4: every round's unnormalized log-weight for each distinct candidate
particle is exactly the logarithm of its frequency minus its estimated
distance, and the `fitnessWeight` configuration field, though stored at
construction, never affects the search: `infer` is identical for any two
configurations differing only in `fitnessWeight`. -/
theorem logWeight_formula_fitnessWeight_inert :
    (∀ samples : List Particle,
      logWeights samples
        = samples.map (fun p => Real.log (p.frequency : ℝ) - (p.distance : ℝ)))
    ∧ ∀ (enc : ℕ → List ℚ) (W : ℕ) (dist : List (List ℚ) → ℚ)
        (propose : ℕ → ℕ → List (Option ℕ)) (multinomial : ℕ → ℤ → List ℝ → List ℤ)
        (p : ℤ) (fw fw' : ℚ) (L : ℕ),
        (SMC.mk p fw).infer enc W dist propose multinomial L
          = (SMC.mk p fw').infer enc W dist propose multinomial L :=
  ⟨fun _ => rfl, fun _ _ _ _ _ _ _ _ _ => rfl⟩

/-- Claim C6: with `maximumLength = 0` no rounds run; the result is the initial
singleton population — one particle holding the empty graph with frequency
equal to `particles` — and the returned list is exactly the empty graph. -/
theorem infer_zero_rounds (enc : ℕ → List ℚ) (W : ℕ) (dist : List (List ℚ) → ℚ)
    (propose : ℕ → ℕ → List (Option ℕ)) (multinomial : ℕ → ℤ → List ℝ → List ℤ)
    (p : ℤ) (fw : ℚ) :
    (SMC.mk p fw).inferPopulation enc W dist propose multinomial 0
      = ([mkParticle enc W dist emptyGraphRef p], 1)
    ∧ (SMC.mk p fw).infer enc W dist propose multinomial 0 = [emptyGraphRef] := by
  constructor
  · simp [SMC.inferPopulation, initState]
  · simp [SMC.infer, SMC.inferPopulation, initState, mkParticle]

/-- Claim C1, the code at the failing input: `ProgramGraph` defines neither
`__eq__` nor `__hash__`, so graphs compare and hash by object identity.  Two
references with equal node sets compare unequal and hash differently, and a
round in which two distinct source particles (both holding the empty graph)
each propose the same node 7 tallies two separate entries of count 1 — with
structurally identical graph values — instead of one entry of count 2. -/
theorem identity_keyed_tally_eval :
    GraphRef.pyEq ⟨3, ⟨{7}⟩⟩ ⟨4, ⟨{7}⟩⟩ = false
    ∧ (⟨3, ⟨{7}⟩⟩ : GraphRef).val.nodes = (⟨4, ⟨{7}⟩⟩ : GraphRef).val.nodes
    ∧ GraphRef.pyHash ⟨3, ⟨{7}⟩⟩ ≠ GraphRef.pyHash ⟨4, ⟨{7}⟩⟩
    ∧ (proposePhase (fun _ => [some 7])
        [mkParticle encD 1 distD ⟨1, ⟨∅⟩⟩ 1, mkParticle encD 1 distD ⟨2, ⟨∅⟩⟩ 1] 3).1
      = [(⟨3, ⟨{7}⟩⟩, 1), (⟨4, ⟨{7}⟩⟩, 1)] := by
  decide

theorem processProposals_nil (g : GraphRef) (st : List (GraphRef × ℤ) × ℕ) :
    processProposals g [] st = st := rfl

theorem proposePhase_nil_props (props : ℕ → List (Option ℕ)) (pop : List Particle) (c : ℕ)
    (hp : ∀ i, props i = []) : proposePhase props pop c = ([], c) := by
  unfold proposePhase
  have key : ∀ (l : List (ℕ × Particle)) (st : List (GraphRef × ℤ) × ℕ),
      l.foldl (fun st ip => processProposals ip.2.graph (props ip.1) st) st = st := by
    intro l
    induction l with
    | nil => intro st; rfl
    | cons x xs ih =>
        intro st
        rw [List.foldl_cons, hp x.1, processProposals_nil]
        exact ih st
  exact key _ _

theorem step_empty_tally (enc : ℕ → List ℚ) (W : ℕ) (dist : List (List ℚ) → ℚ)
    (propose : ℕ → ℕ → List (Option ℕ)) (multinomial : ℕ → ℤ → List ℝ → List ℤ)
    (r : ℕ) (particles : ℤ) (st : List Particle × ℕ)
    (h : (proposePhase (propose r) st.1 st.2).1 = []) :
    (step enc W dist propose multinomial r particles st).1 = [] := by
  unfold step
  simp [h, resamplePhase]

theorem step_empty_pop (enc : ℕ → List ℚ) (W : ℕ) (dist : List (List ℚ) → ℚ)
    (propose : ℕ → ℕ → List (Option ℕ)) (multinomial : ℕ → ℤ → List ℝ → List ℤ)
    (r : ℕ) (particles : ℤ) (st : List Particle × ℕ) (h : st.1 = []) :
    (step enc W dist propose multinomial r particles st).1 = [] :=
  step_empty_tally enc W dist propose multinomial r particles st (by rw [h]; rfl)

theorem step_all_empty_props (enc : ℕ → List ℚ) (W : ℕ) (dist : List (List ℚ) → ℚ)
    (propose : ℕ → ℕ → List (Option ℕ)) (multinomial : ℕ → ℤ → List ℝ → List ℤ)
    (r : ℕ) (particles : ℤ) (st : List Particle × ℕ) (hp : ∀ i, propose r i = []) :
    (step enc W dist propose multinomial r particles st).1 = [] :=
  step_empty_tally enc W dist propose multinomial r particles st
    (by rw [proposePhase_nil_props (propose r) st.1 st.2 hp])

theorem foldl_step_empty (enc : ℕ → List ℚ) (W : ℕ) (dist : List (List ℚ) → ℚ)
    (propose : ℕ → ℕ → List (Option ℕ)) (multinomial : ℕ → ℤ → List ℝ → List ℤ)
    (particles : ℤ) :
    ∀ (ros : List ℕ) (st : List Particle × ℕ), st.1 = [] →
      ((ros.foldl (fun st r => step enc W dist propose multinomial r particles st) st).1 = [])
  | [], _, h => h
  | r :: ros, st, h => by
      rw [List.foldl_cons]
      exact foldl_step_empty enc W dist propose multinomial particles ros _
        (step_empty_pop enc W dist propose multinomial r particles st h)

theorem foldl_step_empty_round (enc : ℕ → List ℚ) (W : ℕ) (dist : List (List ℚ) → ℚ)
    (propose : ℕ → ℕ → List (Option ℕ)) (multinomial : ℕ → ℤ → List ℝ → List ℤ)
    (particles : ℤ) :
    ∀ (ros : List ℕ) (st : List Particle × ℕ),
      (∃ r₀ ∈ ros, ∀ i, propose r₀ i = []) →
      ((ros.foldl (fun st r => step enc W dist propose multinomial r particles st) st).1 = [])
  | [], _, h => absurd h (by simp)
  | r :: ros, st, h => by
      rw [List.foldl_cons]
      rcases h with ⟨r₀, hmem, hp⟩
      rcases List.mem_cons.mp hmem with heq | hmem'
      · subst heq
        exact foldl_step_empty enc W dist propose multinomial particles ros _
          (step_all_empty_props enc W dist propose multinomial r₀ particles st hp)
      · exact foldl_step_empty_round enc W dist propose multinomial particles ros _
          ⟨r₀, hmem', hp⟩

/-- Claim C2: if in some round the proposal oracle returns zero candidates for
every particle, the round's tally is empty, the population shrinks to zero
distinct particles, the controller continues without error (every remaining
round is a total no-op on the empty population), and `infer` returns an empty
list. -/
theorem infer_empty_proposals (enc : ℕ → List ℚ) (W : ℕ) (dist : List (List ℚ) → ℚ)
    (propose : ℕ → ℕ → List (Option ℕ)) (multinomial : ℕ → ℤ → List ℝ → List ℤ)
    (smc : SMC) (L r₀ : ℕ) (hr : r₀ < L) (hp : ∀ i, propose r₀ i = []) :
    smc.infer enc W dist propose multinomial L = [] := by
  unfold SMC.infer SMC.inferPopulation
  rw [foldl_step_empty_round enc W dist propose multinomial smc.particles
    (List.range L) (initState enc W dist smc.particles)
    ⟨r₀, List.mem_range.mpr hr, hp⟩]
  rfl

theorem infer_empty_proposals_witness :
    (SMC.mk 1 2).infer encD 1 distD (fun _ _ => []) (fun _ _ _ => []) 1 = [] :=
  infer_empty_proposals encD 1 distD (fun _ _ => []) (fun _ _ _ => [])
    (SMC.mk 1 2) 1 0 (by decide) (fun _ => rfl)

/-- Claim C3, counterexample to the claim as stated: an `infer` call
(`particles = 3`, one round) in which the proposal oracle returns no candidates
leaves the resulting population empty, so the sum of its frequencies is 0, not
the configured `particles = 3` — the population-size invariant does not hold
for every round of every infer call. -/
theorem mass_invariant_counterexample :
    (((SMC.mk 3 2).inferPopulation encD 1 distD (fun _ _ => []) (fun _ _ _ => []) 1).1.map
        Particle.frequency).sum = 0
    ∧ (SMC.mk 3 2).particles = 3 ∧ (0 : ℤ) ≠ 3 := by
  refine ⟨?_, rfl, by decide⟩
  have h : ((SMC.mk 3 2).inferPopulation encD 1 distD (fun _ _ => []) (fun _ _ _ => []) 1).1
      = [] := by
    unfold SMC.inferPopulation
    exact foldl_step_empty_round encD 1 distD (fun _ _ => []) (fun _ _ _ => []) 3
      (List.range 1) (initState encD 1 distD 3) ⟨0, by simp, fun _ => rfl⟩
  rw [h]
  rfl

theorem resamplePhase_sum (samples : List Particle) :
    ∀ counts : List ℤ, counts.length = samples.length → (∀ c ∈ counts, 0 ≤ c) →
      ((resamplePhase samples counts).map Particle.frequency).sum = counts.sum := by
  induction samples with
  | nil =>
      intro counts hl _
      rw [List.length_nil] at hl
      rw [List.eq_nil_of_length_eq_zero hl]
      rfl
  | cons s ss ih =>
      intro counts hl hpos
      cases counts with
      | nil => simp at hl
      | cons c cs =>
          simp only [List.length_cons, Nat.succ.injEq] at hl
          by_cases hc : 0 < c
          · have hsplit : resamplePhase (s :: ss) (c :: cs)
                = { s with frequency := c } :: resamplePhase ss cs := by
              simp [resamplePhase, hc]
            rw [hsplit]
            simp only [List.map_cons, List.sum_cons]
            rw [ih cs hl fun x hx => hpos x (List.mem_cons_of_mem _ hx)]
          · have hc0 : c = 0 :=
              le_antisymm (not_lt.mp hc) (hpos c (List.mem_cons_self _ _))
            have hsplit : resamplePhase (s :: ss) (c :: cs) = resamplePhase ss cs := by
              simp [resamplePhase, hc]
            rw [hsplit, List.sum_cons, hc0, zero_add]
            exact ih cs hl fun x hx => hpos x (List.mem_cons_of_mem _ hx)

/-- Claim C3, amended: in every round whose candidate tally is non-empty, given
the multinomial collaborator's contract (counts as long as the probability
vector, non-negative, summing to `particles`), the frequencies of the resulting
population sum to exactly `particles` — in particular dropping zero-frequency
particles does not change the sum.  (When the tally is empty the resulting
population is empty with frequency sum 0, the case of the counterexample.) -/
theorem round_mass_conservation (enc : ℕ → List ℚ) (W : ℕ) (dist : List (List ℚ) → ℚ)
    (propose : ℕ → ℕ → List (Option ℕ)) (multinomial : ℕ → ℤ → List ℝ → List ℤ)
    (r : ℕ) (particles : ℤ) (st : List Particle × ℕ)
    (hlen : ∀ ps : List ℝ, ps ≠ [] → (multinomial r particles ps).length = ps.length)
    (hsum : ∀ ps : List ℝ, ps ≠ [] → (multinomial r particles ps).sum = particles)
    (hpos : ∀ ps : List ℝ, ∀ c ∈ multinomial r particles ps, 0 ≤ c)
    (hne : (proposePhase (propose r) st.1 st.2).1 ≠ []) :
    ((step enc W dist propose multinomial r particles st).1.map Particle.frequency).sum
      = particles := by
  have key : ∀ samples : List Particle, samples ≠ [] →
      ((resamplePhase samples
          (multinomial r particles (normalizeWeights (logWeights samples)))).map
        Particle.frequency).sum = particles := by
    intro samples hs
    have hpslen : (normalizeWeights (logWeights samples)).length = samples.length := by
      simp [normalizeWeights, logWeights]
    have hpsne : normalizeWeights (logWeights samples) ≠ [] := by
      apply List.ne_nil_of_length_pos
      rw [hpslen]
      exact List.length_pos.mpr hs
    rw [resamplePhase_sum samples _ (by rw [hlen _ hpsne, hpslen]) (hpos _)]
    exact hsum _ hpsne
  exact key _ fun hmap => hne (List.map_eq_nil_iff.mp hmap)

theorem round_mass_conservation_witness :
    ((step encD 1 distD (fun _ _ => [some 1])
        (fun _ n ps => n :: List.replicate (ps.length - 1) 0) 0 2
        (initState encD 1 distD 2)).1.map Particle.frequency).sum = 2 := by
  apply round_mass_conservation
  · intro ps hps
    have h1 : 0 < ps.length := List.length_pos.mpr hps
    simp only [List.length_cons, List.length_replicate]
    omega
  · intro ps _
    simp [List.sum_replicate]
  · intro ps c hc
    simp only [List.mem_cons, List.mem_replicate] at hc
    rcases hc with h | ⟨_, h⟩ <;> omega
  · decide

theorem sum_map_div (l : List ℝ) (c : ℝ) :
    (l.map (fun x => x / c)).sum = l.sum / c := by
  induction l with
  | nil => simp
  | cons x xs ih => simp [ih, add_div]

theorem foldl_max_const (a : ℝ) :
    ∀ l : List ℝ, (∀ x ∈ l, x = a) → l.foldl max a = a
  | [], _ => rfl
  | y :: ys, h => by
      rw [List.foldl_cons, h y (List.mem_cons_self _ _), max_self]
      exact foldl_max_const a ys fun x hx => h x (List.mem_cons_of_mem _ hx)

theorem maxList_const (l : List ℝ) (a : ℝ) (hne : l ≠ []) (h : ∀ x ∈ l, x = a) :
    maxList l = a := by
  cases l with
  | nil => exact absurd rfl hne
  | cons x xs =>
      have hx : x = a := h x (List.mem_cons_self _ _)
      show xs.foldl max x = a
      rw [hx]
      exact foldl_max_const a xs fun y hy => h y (List.mem_cons_of_mem _ hy)

theorem map_eq_replicate_of_forall {α : Type} (f : α → ℝ) (c : ℝ) :
    ∀ l : List α, (∀ x ∈ l, f x = c) → l.map f = List.replicate l.length c
  | [], _ => rfl
  | x :: xs, h => by
      rw [List.map_cons, h x (List.mem_cons_self _ _), List.length_cons,
        List.replicate_succ,
        map_eq_replicate_of_forall f c xs fun y hy => h y (List.mem_cons_of_mem _ hy)]

/-- Claim C5: the round-weight normalization subtracts the maximum log-weight
before exponentiating (the definition of `normalizeWeights`), and for every
non-empty list of (finite, real) log-weights it yields a valid categorical
distribution — entrywise non-negative, summing to 1 — which is uniform over
the entries whenever all log-weights are equal. -/
theorem normalizeWeights_valid (lws : List ℝ) (h : lws ≠ []) :
    (∀ p ∈ normalizeWeights lws, 0 ≤ p)
    ∧ (normalizeWeights lws).sum = 1
    ∧ ∀ a, (∀ x ∈ lws, x = a) →
        normalizeWeights lws = List.replicate lws.length ((lws.length : ℝ))⁻¹ := by
  have hesne : lws.map (fun lw => Real.exp (lw - maxList lws)) ≠ [] := by
    simpa [List.map_eq_nil_iff] using h
  have hpos_es : ∀ x ∈ lws.map (fun lw => Real.exp (lw - maxList lws)), 0 < x := by
    intro x hx
    rcases List.mem_map.mp hx with ⟨lw, _, rfl⟩
    exact Real.exp_pos _
  have hsum_pos : 0 < (lws.map (fun lw => Real.exp (lw - maxList lws))).sum :=
    List.sum_pos _ hpos_es hesne
  refine ⟨?_, ?_, ?_⟩
  · intro p hp
    simp only [normalizeWeights] at hp
    rcases List.mem_map.mp hp with ⟨e, he, rfl⟩
    exact div_nonneg (le_of_lt (hpos_es e he)) (le_of_lt hsum_pos)
  · show ((lws.map (fun lw => Real.exp (lw - maxList lws))).map
        (fun p => p / (lws.map (fun lw => Real.exp (lw - maxList lws))).sum)).sum = 1
    rw [sum_map_div]
    exact div_self (ne_of_gt hsum_pos)
  · intro a ha
    have hmax : maxList lws = a := maxList_const lws a h ha
    have hes : lws.map (fun lw => Real.exp (lw - maxList lws))
        = List.replicate lws.length 1 := by
      refine map_eq_replicate_of_forall _ _ lws fun x hx => ?_
      rw [hmax, ha x hx, sub_self, Real.exp_zero]
    show ((lws.map (fun lw => Real.exp (lw - maxList lws))).map
        (fun p => p / (lws.map (fun lw => Real.exp (lw - maxList lws))).sum))
        = List.replicate lws.length ((lws.length : ℝ))⁻¹
    rw [hes]
    simp [List.sum_replicate, List.map_replicate, one_div]

theorem normalizeWeights_valid_witness :
    (normalizeWeights [0, 0]).sum = 1 :=
  (normalizeWeights_valid [0, 0] (by simp)).2.1

theorem cacheLookup_cons (q o : ℕ) (v : List ℚ) (c : List (ℕ × List ℚ)) :
    cacheLookup ((q, v) :: c) o = if q = o then some v else cacheLookup c o := by
  by_cases h : q = o
  · rw [if_pos h]
    unfold cacheLookup
    rw [List.find?_cons_of_pos _ (by simpa using h)]
  · rw [if_neg h]
    unfold cacheLookup
    rw [List.find?_cons_of_neg _ (by simpa using h)]

theorem cacheLookup_wf (enc : ℕ → List ℚ) (c : List (ℕ × List ℚ)) (o : ℕ) (v : List ℚ)
    (hwf : cacheWF enc c) (h : cacheLookup c o = some v) : v = enc o := by
  unfold cacheLookup at h
  cases hfind : c.find? (fun e => e.1 == o) with
  | none => rw [hfind] at h; cases h
  | some e =>
      rw [hfind] at h
      injection h with h
      have hmem : e ∈ c := List.mem_of_find?_eq_some hfind
      have hpe : e.1 = o := by simpa using List.find?_some hfind
      rw [← h, ← hpe]
      exact hwf e hmem

theorem invocations_cached (enc : ℕ → List ℚ) (o : ℕ) :
    ∀ (qs : List ℕ) (c : List (ℕ × List ℚ)), cacheLookup c o ≠ none →
      (invocations enc c qs).count o = 0
  | [], _, _ => rfl
  | q :: qs, c, hc => by
      unfold invocations
      rcases hfind : cacheLookup c q with _ | v
      · simp only [objectEncoding, hfind]
        rw [List.count_append]
        have h1 : cacheLookup ((q, enc q) :: c) o ≠ none := by
          rw [cacheLookup_cons]
          by_cases hq : q = o
          · simp [hq]
          · simpa [hq] using hc
        have hqo : q ≠ o := fun he => hc (he ▸ hfind)
        rw [invocations_cached enc o qs ((q, enc q) :: c) h1]
        simp [List.count_cons, hqo]
      · simp only [objectEncoding, hfind]
        rw [List.count_append]
        rw [invocations_cached enc o qs c hc]
        simp

theorem invocations_at_most_once (enc : ℕ → List ℚ) (o : ℕ) :
    ∀ (qs : List ℕ) (c : List (ℕ × List ℚ)), (invocations enc c qs).count o ≤ 1
  | [], _ => by simp [invocations]
  | q :: qs, c => by
      unfold invocations
      rcases hfind : cacheLookup c q with _ | v
      · simp only [objectEncoding, hfind]
        rw [List.count_append]
        by_cases hqo : q = o
        · subst hqo
          have h1 : cacheLookup ((q, enc q) :: c) q ≠ none := by
            rw [cacheLookup_cons]
            simp
          rw [invocations_cached enc q qs ((q, enc q) :: c) h1]
          simp [List.count_cons]
        · have h2 := invocations_at_most_once enc o qs ((q, enc q) :: c)
          simpa [List.count_cons, hqo] using h2
      · simp only [objectEncoding, hfind]
        rw [List.count_append]
        have h3 : ([] : List ℕ).count o = 0 := rfl
        simpa using invocations_at_most_once enc o qs c

/-- Claim C8: within one search, the memoized object-encoding layer is
consistent — on a well-formed cache every query (hit or transparently-computed
miss) returns exactly the collaborator's value `enc o`, identically on every
repetition, and preserves well-formedness; and across any sequence of queries
starting from the empty cache the external encoder collaborator is invoked at
most once per distinct object.  Lookups are total (never raise): misses are
computed and stored. -/
theorem objectEncoding_memoized (enc : ℕ → List ℚ) :
    (∀ (c : List (ℕ × List ℚ)) (o : ℕ), cacheWF enc c →
      (objectEncoding enc c o).1 = enc o ∧ cacheWF enc (objectEncoding enc c o).2.1)
    ∧ ∀ (qs : List ℕ) (o : ℕ), (invocations enc [] qs).count o ≤ 1 := by
  constructor
  · intro c o hwf
    constructor
    · rcases hfind : cacheLookup c o with _ | v
      · simp [objectEncoding, hfind]
      · simpa [objectEncoding, hfind] using cacheLookup_wf enc c o v hwf hfind
    · rcases hfind : cacheLookup c o with _ | v
      · intro e he
        simp only [objectEncoding, hfind, List.mem_cons] at he
        rcases he with he | he
        · simp [he]
        · exact hwf e he
      · simpa [objectEncoding, hfind] using hwf
  · intro qs o
    exact invocations_at_most_once enc o qs []

theorem objectEncoding_memoized_witness :
    (objectEncoding encD [] 5).1 = encD 5 :=
  ((objectEncoding_memoized encD).1 [] 5 fun e he => absurd he (List.not_mem_nil e)).1

end ProgramSearch
